import Mathlib

/-!
Shallow embedding of `atscheck.py` (App Transport Security checker for .ipa
archives) together with a verification of its specification.

Modelling conventions:
* A decoded plist value (`plistlib` output) is `PVal`: booleans, strings,
  integers and string-keyed dictionaries (the Manifest Tree of the spec).
* Python truthiness (`bool(x)`) is `truthy`; `x or y` on optional values is
  `pyOrO`; `x or {}` is `coerceEmpty`.
* Code that can raise an uncaught exception is embedded in `Except String`;
  `Except.error` models a raised `AttributeError` escaping the function.
* `fnmatch.fnmatch` on the three patterns used by the source (which contain
  only literal characters and `*`) is embedded as `globM`: on POSIX,
  `fnmatch` translates `*` to the regex `.*`, so a single `*` matches any
  character sequence including `/`, and `**` behaves exactly like `*`.
* A zip archive is a list of members in internal order (`ZMember`): a path
  plus `Option Plist` content, where `none` models a member whose payload
  `plistlib.loads` fails to parse (the `except Exception` branch of `run`).
* The archive argument of `run` is `Option (List ZMember)`: `none` models
  `zipfile.ZipFile` raising `BadZipFile` or `FileNotFoundError`.
-/

namespace ATSCheck

/-- Manifest Tree values: booleans, strings, numbers and nested mappings. -/
inductive PVal : Type where
  | b (v : Bool) : PVal
  | s (v : String) : PVal
  | n (v : Int) : PVal
  | dict (entries : List (String × PVal)) : PVal

abbrev Plist := List (String × PVal)

def emptyStr : String := ""

/-- Python truthiness, `bool(x)`. -/
def truthy : PVal → Bool
  | PVal.b v => v
  | PVal.s v => !(v == emptyStr)
  | PVal.n v => !(v == 0)
  | PVal.dict es => !es.isEmpty

/-- Python truthiness of a possibly-absent value (`bool(None)` is `False`). -/
def truthyOpt : Option PVal → Bool
  | none => false
  | some v => truthy v

/-- Python `x or {}`. -/
def coerceEmpty (v : PVal) : PVal :=
  if truthy v then v else PVal.dict []

/-- Python `x or y` on optional values (`None` is falsy). -/
def pyOrO (a b : Option PVal) : Option PVal :=
  if truthyOpt a then a else b

/-- Dictionary lookup, `d.get(k)` on a dict modelled as an entry list. -/
def lookupKV (l : List (String × PVal)) (k : String) : Option PVal :=
  match l.find? (fun kv => kv.1 == k) with
  | some kv => some kv.2
  | none => none

def kNSAppTransportSecurity : String := "NSAppTransportSecurity"
def kNSExceptionDomains : String := "NSExceptionDomains"
def kNSAllowsArbitraryLoads : String := "NSAllowsArbitraryLoads"
def kNSAllowsArbitraryLoadsInWebContent : String := "NSAllowsArbitraryLoadsInWebContent"
def kNSAllowsArbitraryLoadsForMedia : String := "NSAllowsArbitraryLoadsForMedia"
def kNSExceptionAllowsInsecureHTTPLoads : String := "NSExceptionAllowsInsecureHTTPLoads"
def kNSTemporaryExceptionAllowsInsecureHTTPLoads : String :=
  "NSTemporaryExceptionAllowsInsecureHTTPLoads"
def kNSIncludesSubdomains : String := "NSIncludesSubdomains"
def kNSRequiresCertificateTransparency : String := "NSRequiresCertificateTransparency"
def kNSExceptionMinimumTLSVersion : String := "NSExceptionMinimumTLSVersion"
def kNSTemporaryExceptionMinimumTLSVersion : String := "NSTemporaryExceptionMinimumTLSVersion"
def kNSExceptionRequiresForwardSecrecy : String := "NSExceptionRequiresForwardSecrecy"
def kNSTemporaryExceptionRequiresForwardSecrecy : String :=
  "NSTemporaryExceptionRequiresForwardSecrecy"

/-- The `ATS_TOP_KEYS` list of the source. -/
def ATS_TOP_KEYS : List String :=
  [kNSAllowsArbitraryLoads, kNSAllowsArbitraryLoadsInWebContent, kNSAllowsArbitraryLoadsForMedia]

/-- The message of the `AttributeError` raised by `.get`/`.items` on a non-dict. -/
def errAttr : String := "AttributeError"

/-- One row of the `domains` list built by `summarize_pl`. -/
structure DomainRow : Type where
  domain : String
  NSExceptionAllowsInsecureHTTPLoads : Option PVal
  NSTemporaryExceptionAllowsInsecureHTTPLoads : Option PVal
  NSIncludesSubdomains : Option PVal
  NSRequiresCertificateTransparency : Option PVal
  NSExceptionMinimumTLSVersion : Option PVal
  NSTemporaryExceptionMinimumTLSVersion : Option PVal
  NSExceptionRequiresForwardSecrecy : Option PVal
  NSTemporaryExceptionRequiresForwardSecrecy : Option PVal
  effective_http_permitted : Bool
  MinimumTLSVersionEffective : Option PVal

/-- The Security Summary returned by `summarize_pl`. -/
structure Summary : Type where
  top_level : List (String × Option PVal)
  domains : List DomainRow

/-- `top = \x7bk: ats.get(k) for k in ATS_TOP_KEYS\x7d` of the source. -/
def mkTop (atsE : List (String × PVal)) : List (String × Option PVal) :=
  ATS_TOP_KEYS.map (fun k => (k, lookupKV atsE k))

/-- Python `top.get(k)` on the computed `top` dict: `None` when the key is
missing or stored as `None`. -/
def topGet (top : List (String × Option PVal)) (k : String) : Option PVal :=
  match top.find? (fun kv => kv.1 == k) with
  | some kv => kv.2
  | none => none

/-- The row built for one exception-domain entry (source lines 90-96). -/
def mkRow (top : List (String × Option PVal)) (dname : String)
    (cfg : List (String × PVal)) : DomainRow :=
  { domain := dname
    NSExceptionAllowsInsecureHTTPLoads := lookupKV cfg kNSExceptionAllowsInsecureHTTPLoads
    NSTemporaryExceptionAllowsInsecureHTTPLoads :=
      lookupKV cfg kNSTemporaryExceptionAllowsInsecureHTTPLoads
    NSIncludesSubdomains := lookupKV cfg kNSIncludesSubdomains
    NSRequiresCertificateTransparency := lookupKV cfg kNSRequiresCertificateTransparency
    NSExceptionMinimumTLSVersion := lookupKV cfg kNSExceptionMinimumTLSVersion
    NSTemporaryExceptionMinimumTLSVersion := lookupKV cfg kNSTemporaryExceptionMinimumTLSVersion
    NSExceptionRequiresForwardSecrecy := lookupKV cfg kNSExceptionRequiresForwardSecrecy
    NSTemporaryExceptionRequiresForwardSecrecy :=
      lookupKV cfg kNSTemporaryExceptionRequiresForwardSecrecy
    effective_http_permitted :=
      (truthyOpt (lookupKV cfg kNSExceptionAllowsInsecureHTTPLoads) ||
        truthyOpt (lookupKV cfg kNSTemporaryExceptionAllowsInsecureHTTPLoads)) ||
      truthyOpt (topGet top kNSAllowsArbitraryLoads)
    MinimumTLSVersionEffective :=
      pyOrO (lookupKV cfg kNSExceptionMinimumTLSVersion)
        (lookupKV cfg kNSTemporaryExceptionMinimumTLSVersion) }

/-- Python string `<`: lexicographic comparison by code point. -/
def ltChars : List Char → List Char → Bool
  | _, [] => false
  | [], _ :: _ => true
  | a :: as, b :: bs =>
    if a.toNat < b.toNat then true
    else if b.toNat < a.toNat then false
    else ltChars as bs

def strLt (a b : String) : Bool :=
  ltChars a.toList b.toList

/-- Stable insertion used to model Python `sorted` on the `(name, cfg)` items
(ascending by domain name). -/
def insertByName (x : String × PVal) : List (String × PVal) → List (String × PVal)
  | [] => [x]
  | y :: ys => if strLt x.1 y.1 then x :: y :: ys else y :: insertByName x ys

/-- `sorted(exc.items())` of the source (dict keys are unique, so only the
name participates in the comparison). -/
def sortByName (l : List (String × PVal)) : List (String × PVal) :=
  l.foldr insertByName []

/-- The loop of source lines 89-97: builds one row per domain entry; a
non-dict `cfg` raises `AttributeError` from `cfg.get`. -/
def buildRows (top : List (String × Option PVal)) :
    List (String × PVal) → Except String (List DomainRow)
  | [] => Except.ok []
  | (dname, cfg) :: rest =>
    match cfg with
    | PVal.dict cfgE =>
      match buildRows top rest with
      | Except.error e => Except.error e
      | Except.ok rows => Except.ok (mkRow top dname cfgE :: rows)
    | _ => Except.error errAttr

/-- `ats = pl.get("NSAppTransportSecurity", \x7b\x7d) or \x7b\x7d` (source line 85). -/
def atsRaw (pl : Plist) : PVal :=
  coerceEmpty ((lookupKV pl kNSAppTransportSecurity).getD (PVal.dict []))

/-- `exc = ats.get("NSExceptionDomains", \x7b\x7d) or \x7b\x7d` (source line 86),
defined on the entries of an `ats` that is a dict. -/
def excRaw (atsE : List (String × PVal)) : PVal :=
  coerceEmpty ((lookupKV atsE kNSExceptionDomains).getD (PVal.dict []))

/-- `summarize_pl` (source lines 84-98).  `Except.error` models an uncaught
`AttributeError`: `ats.get`/`exc.items`/`cfg.get` on a truthy non-dict. -/
def summarize_pl (pl : Plist) : Except String Summary :=
  match atsRaw pl with
  | PVal.dict atsE =>
    match excRaw atsE with
    | PVal.dict excE =>
      match buildRows (mkTop atsE) (sortByName excE) with
      | Except.error e => Except.error e
      | Except.ok rows => Except.ok { top_level := mkTop atsE, domains := rows }
    | _ => Except.error errAttr
  | _ => Except.error errAttr

def starC : Char := '*'
def slashC : Char := '/'

/-- All strict suffixes of a character list, plus the list itself. -/
def suffixes : List Char → List (List Char)
  | [] => [[]]
  | c :: s => (c :: s) :: suffixes s

/-- `fnmatch` matching for patterns built only from literal characters and
`*`: `fnmatch.translate` maps `*` to the regex `.*`, which matches any
character sequence, including `/`. -/
def globM : List Char → List Char → Bool
  | [], s => s.isEmpty
  | p :: ps, s =>
    if p == starC then (suffixes s).any (fun t => globM ps t)
    else
      match s with
      | [] => false
      | c :: s2 => p == c && globM ps s2

/-- `fnmatch.fnmatch(name, p)` (POSIX: `normcase` is the identity). -/
def fnmatchB (p name : String) : Bool :=
  globM p.toList name.toList

def patApp1 : String := "Payload/*.app/Info.plist"
def patApp2 : String := "Payload/**/*.app/Info.plist"
def patAppex : String := "Payload/**/*.appex/Info.plist"

/-- The `pats` list of `find_all_info_plists`. -/
def pats : List String := [patApp1, patApp2, patAppex]

def matchesAny (name : String) : Bool :=
  pats.any (fun p => fnmatchB p name)

/-- First-seen-order deduplication (source lines 75-78), with the `seen` set
modelled as the list of already-emitted paths. -/
def dedupGo (seen : List String) : List String → List String
  | [] => []
  | p :: ps => if seen.contains p then dedupGo seen ps else p :: dedupGo (p :: seen) ps

/-- `find_all_info_plists` (source lines 68-79) on the archive's name list. -/
def find_all_info_plists (names : List String) : List String :=
  dedupGo [] (names.filter matchesAny)

/-- One archive member: its path and its decoded payload; `content = none`
models a payload on which `plistlib.loads` raises (any parse exception). -/
structure ZMember : Type where
  path : String
  content : Option Plist

/-- `parse_plist(z, p)` wrapped in the per-member `try`: the decoded tree, or
`none` when parsing raises (also when no member has that path). -/
def readMember (zz : List ZMember) (p : String) : Option Plist :=
  match zz.find? (fun m => m.path == p) with
  | some m => m.content
  | none => none

/-- The member loop of `run` (source lines 108-115): parse failures are
skipped, a `summarize_pl` exception propagates. -/
def processPaths (zz : List ZMember) : List String → Except String (List (String × Summary))
  | [] => Except.ok []
  | p :: ps =>
    match readMember zz p with
    | none => processPaths zz ps
    | some pl =>
      match summarize_pl pl with
      | Except.error e => Except.error e
      | Except.ok s =>
        match processPaths zz ps with
        | Except.error e => Except.error e
        | Except.ok rest => Except.ok ((p, s) :: rest)

/-- In-place domain filtering of one summary (source line 122). -/
def filterSummary (fd : String) (s : Summary) : Summary :=
  { s with domains := s.domains.filter (fun d => d.domain == fd) }

/-- `if filter_domain:` (source lines 120-122); Python treats both `None`
and the empty string as no filter. -/
def applyFilter (filt : Option String) (rs : List (String × Summary)) :
    List (String × Summary) :=
  match filt with
  | none => rs
  | some fd => if fd == emptyStr then rs else rs.map (fun r => (r.1, filterSummary fd r.2))

/-- `insecure = any(...)` (source line 124). -/
def anyInsecure (rs : List (String × Summary)) : Bool :=
  rs.any (fun r => r.2.domains.any (fun d => d.effective_http_permitted))

/-- `run` (source lines 100-157).  The archive is `none` when opening raises
`BadZipFile` or `FileNotFoundError`; the returned `Except.error` models an
exception escaping `run` (the process then exits via a traceback, outside
the documented codes 0/2/3).  `json_mode` and `color_mode` only affect
printing, never the returned code, and are omitted. -/
def run (z : Option (List ZMember)) (filt : Option String) : Except String Nat :=
  match z with
  | none => Except.ok 3
  | some zz =>
    let paths := find_all_info_plists (zz.map (fun m => m.path))
    if paths.isEmpty then Except.ok 3
    else
      match processPaths zz paths with
      | Except.error e => Except.error e
      | Except.ok results =>
        Except.ok (if anyInsecure (applyFilter filt results) then 2 else 0)

/-! Specification-side definitions, used to state the claims independently of
the pipeline's internal control flow. -/

/-- The manifest paths located inside an archive. -/
def locatedPaths (zz : List ZMember) : List String :=
  find_all_info_plists (zz.map (fun m => m.path))

/-- Whether a domain record survives the optional domain filter. -/
def domMatch (filt : Option String) (d : DomainRow) : Bool :=
  match filt with
  | none => true
  | some fd => if fd == emptyStr then true else d.domain == fd

/-- The member at path `p` decodes but its evaluation raises. -/
def crashAt (zz : List ZMember) (p : String) : Bool :=
  match readMember zz p with
  | none => false
  | some pl =>
    match summarize_pl pl with
    | Except.error _ => true
    | Except.ok _ => false

/-- The member at path `p` decodes, evaluates, and contributes (after the
filter) a domain record with `effective_http_permitted = true`. -/
def insecureAt (zz : List ZMember) (filt : Option String) (p : String) : Bool :=
  match readMember zz p with
  | none => false
  | some pl =>
    match summarize_pl pl with
    | Except.error _ => false
    | Except.ok s => s.domains.any (fun d => domMatch filt d && d.effective_http_permitted)

/-- Some located, decodable manifest makes the evaluator raise. -/
def anyCrashB (zz : List ZMember) : Bool :=
  (locatedPaths zz).any (crashAt zz)

/-- The spec's overall verdict: some manifest has a surviving insecure record. -/
def insecureSpecB (zz : List ZMember) (filt : Option String) : Bool :=
  (locatedPaths zz).any (insecureAt zz filt)

/-- The spec's explicit-boolean-`true` test on an optional flag value. -/
def specExplicitTrue : Option PVal → Bool
  | some (PVal.b true) => true
  | _ => false

def isDictB : PVal → Bool
  | PVal.dict _ => true
  | _ => false

/-- The trees on which `summarize_pl` returns instead of raising: after
coercing falsy values to empty mappings, the security section and the
exception-domains value are mappings, and every domain entry is a mapping. -/
def summarizeWellTyped (pl : Plist) : Bool :=
  match atsRaw pl with
  | PVal.dict atsE =>
    match excRaw atsE with
    | PVal.dict excE => excE.all (fun kv => isDictB kv.2)
    | _ => false
  | _ => false

/-- Path-segment splitting at `/`, for the spec's notion of glob matching. -/
def splitSlash : List Char → List (List Char)
  | [] => [[]]
  | c :: s =>
    if c == slashC then [] :: splitSlash s
    else
      match splitSlash s with
      | [] => [[c]]
      | seg :: rest => (c :: seg) :: rest

def strPayloadSeg : String := "Payload"
def strInfoSeg : String := "Info.plist"
def strAppSuf : String := ".app"
def strAppexSuf : String := ".appex"
def payloadSegL : List Char := String.toList strPayloadSeg
def infoSegL : List Char := String.toList strInfoSeg
def appSufL : List Char := String.toList strAppSuf
def appexSufL : List Char := String.toList strAppexSuf

/-- Modelled from the spec: the claimed locator semantics, in which the
name wildcard spans a single path segment and `**` spans zero or more
segments.  A path is claimed to be found exactly when its segments are
`Payload`, zero or more intermediate segments, a segment ending in `.app`
or `.appex`, and `Info.plist`. -/
def specLocatorMatch (s : String) : Bool :=
  match splitSlash s.toList with
  | paySeg :: rest =>
    paySeg == payloadSegL &&
      (match rest.reverse with
       | infoSeg :: bundleSeg :: _ =>
         infoSeg == infoSegL &&
           (appSufL.isSuffixOf bundleSeg || appexSufL.isSuffixOf bundleSeg)
       | _ => false)
  | _ => false

def strPayloadSlash : String := "Payload/"
def strAppTail : String := ".app/Info.plist"
def strAppexTail : String := ".appex/Info.plist"
def payloadSlashL : List Char := String.toList strPayloadSlash
def appTailL : List Char := String.toList strAppTail
def appexTailL : List Char := String.toList strAppexTail

/-- Domain/effective projection of a row, used to compare summaries. -/
def projDomEff (r : DomainRow) : String × Bool :=
  (r.domain, r.effective_http_permitted)

/-! Concrete inputs used by counterexamples and witnesses. -/

def strNo : String := "no"
def tls10 : String := "TLSv1.0"
def dnEvil : String := "evil.example"
def dnGood : String := "good.example"
def kOther : String := "CFBundleName"
def pathA : String := "Payload/A.app/Info.plist"
def pathB : String := "Payload/B.app/Info.plist"
def pathDeep : String := "Payload/A.app/PlugIns/E.appex/Info.plist"
def cPathC3 : String := "Payload/Ext.appex/Info.plist"

/-- A tree whose only insecure evidence is the non-boolean string `"no"`
stored under the canonical insecure-HTTP key. -/
def cExPl1 : Plist :=
  [(kNSAppTransportSecurity, PVal.dict
    [(kNSExceptionDomains, PVal.dict
      [(dnEvil, PVal.dict [(kNSExceptionAllowsInsecureHTTPLoads, PVal.s strNo)])])])]

/-- A tree whose security section is a truthy non-mapping. -/
def cExPl5 : Plist :=
  [(kNSAppTransportSecurity, PVal.s strNo)]

/-- An archive whose one manifest decodes but makes the evaluator raise. -/
def zzCrash : List ZMember :=
  [⟨pathA, some cExPl5⟩]

/-- An archive whose members are all located but none decodes. -/
def zzC4 : List ZMember :=
  [⟨pathA, none⟩, ⟨pathB, none⟩]

/-- A tree whose bundle-wide arbitrary-loads flag is a truthy string. -/
def cExPl6 : Plist :=
  [(kNSAppTransportSecurity, PVal.dict
    [(kNSAllowsArbitraryLoads, PVal.s strNo),
     (kNSExceptionDomains, PVal.dict [(dnEvil, PVal.dict [])])])]

/-- A domain whose canonical minimum-TLS key is present but falsy (the empty
string) while the legacy key holds a version string. -/
def cExPl7 : Plist :=
  [(kNSAppTransportSecurity, PVal.dict
    [(kNSExceptionDomains, PVal.dict
      [(dnEvil, PVal.dict
        [(kNSExceptionMinimumTLSVersion, PVal.s emptyStr),
         (kNSTemporaryExceptionMinimumTLSVersion, PVal.s tls10)])])])]

def excW6 : PVal :=
  PVal.dict [(dnEvil, PVal.dict [(kNSExceptionAllowsInsecureHTTPLoads, PVal.b true)])]
def a1W6 : List (String × PVal) := [(kNSExceptionDomains, excW6)]
def a2W6 : List (String × PVal) :=
  [(kNSAllowsArbitraryLoads, PVal.b false), (kNSExceptionDomains, excW6)]
def pl1W6 : Plist := [(kNSAppTransportSecurity, PVal.dict a1W6)]
def pl2W6 : Plist := [(kNSAppTransportSecurity, PVal.dict a2W6)]

/-- Bundle-wide override true while the domain declares insecure HTTP false. -/
def plW1 : Plist :=
  [(kNSAppTransportSecurity, PVal.dict
    [(kNSAllowsArbitraryLoads, PVal.b true),
     (kNSExceptionDomains, PVal.dict
       [(dnEvil, PVal.dict [(kNSExceptionAllowsInsecureHTTPLoads, PVal.b false)])])])]

def rowW1 : DomainRow :=
  { domain := dnEvil
    NSExceptionAllowsInsecureHTTPLoads := some (PVal.b false)
    NSTemporaryExceptionAllowsInsecureHTTPLoads := none
    NSIncludesSubdomains := none
    NSRequiresCertificateTransparency := none
    NSExceptionMinimumTLSVersion := none
    NSTemporaryExceptionMinimumTLSVersion := none
    NSExceptionRequiresForwardSecrecy := none
    NSTemporaryExceptionRequiresForwardSecrecy := none
    effective_http_permitted := true
    MinimumTLSVersionEffective := none }

def sW1 : Summary :=
  { top_level := [(kNSAllowsArbitraryLoads, some (PVal.b true)),
                  (kNSAllowsArbitraryLoadsInWebContent, none),
                  (kNSAllowsArbitraryLoadsForMedia, none)]
    domains := [rowW1] }

/-- Only the legacy minimum-TLS key is declared. -/
def plW7 : Plist :=
  [(kNSAppTransportSecurity, PVal.dict
    [(kNSExceptionDomains, PVal.dict
      [(dnEvil, PVal.dict [(kNSTemporaryExceptionMinimumTLSVersion, PVal.s tls10)])])])]

def rowW7 : DomainRow :=
  { domain := dnEvil
    NSExceptionAllowsInsecureHTTPLoads := none
    NSTemporaryExceptionAllowsInsecureHTTPLoads := none
    NSIncludesSubdomains := none
    NSRequiresCertificateTransparency := none
    NSExceptionMinimumTLSVersion := none
    NSTemporaryExceptionMinimumTLSVersion := some (PVal.s tls10)
    NSExceptionRequiresForwardSecrecy := none
    NSTemporaryExceptionRequiresForwardSecrecy := none
    effective_http_permitted := false
    MinimumTLSVersionEffective := some (PVal.s tls10) }

def sW7 : Summary :=
  { top_level := [(kNSAllowsArbitraryLoads, none),
                  (kNSAllowsArbitraryLoadsInWebContent, none),
                  (kNSAllowsArbitraryLoadsForMedia, none)]
    domains := [rowW7] }

/-- A manifest declaring insecure HTTP for one domain, no bundle-wide flags. -/
def plIns8 : Plist :=
  [(kNSAppTransportSecurity, PVal.dict
    [(kNSExceptionDomains, PVal.dict
      [(dnEvil, PVal.dict [(kNSExceptionAllowsInsecureHTTPLoads, PVal.b true)])])])]

def zz8 : List ZMember := [⟨pathA, some plIns8⟩]

/-- A manifest with no security section at all. -/
def pl10 : Plist := [(kOther, PVal.b true)]

/-- The summary produced for a manifest with no security section. -/
def secureEmptySummary : Summary :=
  { top_level := [(kNSAllowsArbitraryLoads, none),
                  (kNSAllowsArbitraryLoadsInWebContent, none),
                  (kNSAllowsArbitraryLoadsForMedia, none)]
    domains := [] }

/-! Properties of the glob matcher. -/

theorem mem_suffixes (s : List Char) : ∀ t, t ∈ suffixes s ↔ ∃ u, s = u ++ t := by
  induction s with
  | nil =>
    intro t
    constructor
    · intro ht
      simp only [suffixes, List.mem_singleton] at ht
      exact ⟨[], by simp [ht]⟩
    · rintro ⟨u, hu⟩
      have h2 := (List.append_eq_nil.mp hu.symm).2
      simp [suffixes, h2]
  | cons c s ih =>
    intro t
    constructor
    · intro ht
      simp only [suffixes, List.mem_cons] at ht
      rcases ht with rfl | ht
      · exact ⟨[], rfl⟩
      · obtain ⟨u, rfl⟩ := (ih t).mp ht
        exact ⟨c :: u, rfl⟩
    · rintro ⟨u, hu⟩
      cases u with
      | nil =>
        simp only [List.nil_append] at hu
        simp [suffixes, hu]
      | cons d u2 =>
        simp only [List.cons_append, List.cons.injEq] at hu
        obtain ⟨rfl, hs⟩ := hu
        simp only [suffixes, List.mem_cons]
        exact Or.inr ((ih t).mpr ⟨u2, hs⟩)

theorem globM_nil_iff (s : List Char) : globM [] s = true ↔ s = [] := by
  simp [globM, List.isEmpty_iff]

theorem globM_star_iff (ps s : List Char) :
    globM (starC :: ps) s = true ↔ ∃ u t, s = u ++ t ∧ globM ps t = true := by
  simp only [globM, beq_self_eq_true, if_true, List.any_eq_true]
  constructor
  · rintro ⟨t, ht, hg⟩
    obtain ⟨u, rfl⟩ := (mem_suffixes s t).mp ht
    exact ⟨u, t, rfl, hg⟩
  · rintro ⟨u, t, rfl, hg⟩
    exact ⟨t, (mem_suffixes _ t).mpr ⟨u, rfl⟩, hg⟩

theorem globM_lit_iff (c : Char) (hc : (c == starC) = false) (ps s : List Char) :
    globM (c :: ps) s = true ↔ ∃ t, s = c :: t ∧ globM ps t = true := by
  cases s with
  | nil => simp [globM, hc]
  | cons d s2 =>
    simp only [globM, hc, Bool.false_eq_true, if_false, Bool.and_eq_true, beq_iff_eq]
    constructor
    · rintro ⟨rfl, h⟩
      exact ⟨s2, rfl, h⟩
    · rintro ⟨t, ht, h⟩
      obtain ⟨rfl, rfl⟩ := List.cons.injEq .. |>.mp ht |>.imp id id
      exact ⟨rfl, h⟩

theorem globM_lits_append_iff (l : List Char) :
    (∀ c ∈ l, (c == starC) = false) →
    ∀ ps s, globM (l ++ ps) s = true ↔ ∃ t, s = l ++ t ∧ globM ps t = true := by
  induction l with
  | nil =>
    intro _ ps s
    simp
  | cons c l ih =>
    intro hl ps s
    have hc := hl c (List.mem_cons_self c l)
    have hl2 : ∀ d ∈ l, (d == starC) = false := fun d hd => hl d (List.mem_cons_of_mem c hd)
    rw [List.cons_append, globM_lit_iff c hc]
    constructor
    · rintro ⟨t, rfl, hg⟩
      obtain ⟨t2, rfl, hg2⟩ := (ih hl2 ps t).mp hg
      exact ⟨t2, rfl, hg2⟩
    · rintro ⟨t, rfl, hg⟩
      exact ⟨l ++ t, by simp, (ih hl2 ps (l ++ t)).mpr ⟨t, rfl, hg⟩⟩

theorem globM_lits_iff (l : List Char) (hl : ∀ c ∈ l, (c == starC) = false) (s : List Char) :
    globM l s = true ↔ s = l := by
  have h := globM_lits_append_iff l hl [] s
  rw [List.append_nil] at h
  rw [h]
  constructor
  · rintro ⟨t, rfl, hg⟩
    rw [(globM_nil_iff t).mp hg, List.append_nil]
  · rintro rfl
    exact ⟨[], by simp, rfl⟩

theorem glob_pat1_iff (s : List Char) :
    globM patApp1.toList s = true ↔ ∃ x, s = payloadSlashL ++ x ++ appTailL := by
  have hdec : patApp1.toList = payloadSlashL ++ starC :: appTailL := by decide
  rw [hdec, globM_lits_append_iff payloadSlashL (by decide) (starC :: appTailL) s]
  constructor
  · rintro ⟨t, rfl, hg⟩
    obtain ⟨u, t2, rfl, hg2⟩ := (globM_star_iff _ _).mp hg
    have ht2 : t2 = appTailL := (globM_lits_iff _ (by decide) _).mp hg2
    subst ht2
    exact ⟨u, by simp⟩
  · rintro ⟨x, rfl⟩
    exact ⟨x ++ appTailL, by simp,
      (globM_star_iff _ _).mpr ⟨x, appTailL, rfl, (globM_lits_iff _ (by decide) _).mpr rfl⟩⟩

theorem glob_starstar_iff (tail : List Char) (htail : ∀ c ∈ tail, (c == starC) = false)
    (t : List Char) :
    globM (starC :: starC :: slashC :: starC :: tail) t = true ↔
      ∃ x y, t = x ++ slashC :: y ++ tail := by
  constructor
  · intro hg
    obtain ⟨u1, t1, rfl, hg1⟩ := (globM_star_iff _ _).mp hg
    obtain ⟨u2, t2, rfl, hg2⟩ := (globM_star_iff _ _).mp hg1
    obtain ⟨t3, rfl, hg3⟩ := (globM_lit_iff slashC (by decide) _ _).mp hg2
    obtain ⟨u3, t4, rfl, hg4⟩ := (globM_star_iff _ _).mp hg3
    have ht4 : t4 = tail := (globM_lits_iff tail htail _).mp hg4
    subst ht4
    exact ⟨u1 ++ u2, u3, by simp⟩
  · rintro ⟨x, y, rfl⟩
    apply (globM_star_iff _ _).mpr
    refine ⟨x, slashC :: (y ++ tail), by simp, ?_⟩
    apply (globM_star_iff _ _).mpr
    refine ⟨[], slashC :: (y ++ tail), by simp, ?_⟩
    apply (globM_lit_iff slashC (by decide) _ _).mpr
    refine ⟨y ++ tail, rfl, ?_⟩
    apply (globM_star_iff _ _).mpr
    exact ⟨y, tail, rfl, (globM_lits_iff tail htail _).mpr rfl⟩

theorem glob_pat2_iff (s : List Char) :
    globM patApp2.toList s = true ↔
      ∃ x y, s = payloadSlashL ++ x ++ slashC :: y ++ appTailL := by
  have hdec : patApp2.toList
      = payloadSlashL ++ starC :: starC :: slashC :: starC :: appTailL := by decide
  rw [hdec, globM_lits_append_iff payloadSlashL (by decide) _ s]
  constructor
  · rintro ⟨t, rfl, hg⟩
    obtain ⟨x, y, rfl⟩ := (glob_starstar_iff appTailL (by decide) t).mp hg
    exact ⟨x, y, rfl⟩
  · rintro ⟨x, y, rfl⟩
    exact ⟨x ++ slashC :: y ++ appTailL, rfl,
      (glob_starstar_iff appTailL (by decide) _).mpr ⟨x, y, rfl⟩⟩

theorem glob_pat3_iff (s : List Char) :
    globM patAppex.toList s = true ↔
      ∃ x y, s = payloadSlashL ++ x ++ slashC :: y ++ appexTailL := by
  have hdec : patAppex.toList
      = payloadSlashL ++ starC :: starC :: slashC :: starC :: appexTailL := by decide
  rw [hdec, globM_lits_append_iff payloadSlashL (by decide) _ s]
  constructor
  · rintro ⟨t, rfl, hg⟩
    obtain ⟨x, y, rfl⟩ := (glob_starstar_iff appexTailL (by decide) t).mp hg
    exact ⟨x, y, rfl⟩
  · rintro ⟨x, y, rfl⟩
    exact ⟨x ++ slashC :: y ++ appexTailL, rfl,
      (glob_starstar_iff appexTailL (by decide) _).mpr ⟨x, y, rfl⟩⟩

/-- C3 (counterexample): the claim asserts that an extension manifest directly
under `Payload/` — `Payload/Ext.appex/Info.plist`, which is within the claimed
glob shapes (`specLocatorMatch` evaluates to `true` on it) — is found; but the
locator returns the empty list on an archive containing exactly that member,
because `fnmatch` translates `**/` to `.*.*/`, which requires at least one
additional `/` between `Payload/` and the `.appex` segment. -/
theorem C3_counterexample :
    specLocatorMatch cPathC3 = true ∧ find_all_info_plists [cPathC3] = [] :=
  ⟨rfl, rfl⟩

/-- C3 (amended): the locator matches member paths with `fnmatch` semantics,
in which `*` matches any character sequence including `/` and `**` is
equivalent to `*`.  A path is matched exactly when it is
`Payload/<anything>.app/Info.plist` (the wildcard may span any number of path
segments, so this covers arbitrary depth) or
`Payload/<anything>/<anything>.appex/Info.plist` — the extension pattern
requires at least one `/` between `Payload/` and the `.appex` component, so an
extension manifest directly under `Payload/` is not found. -/
theorem C3_amended (s : String) :
    matchesAny s = true ↔
      (∃ x, s.toList = payloadSlashL ++ x ++ appTailL) ∨
      ∃ x y, s.toList = payloadSlashL ++ x ++ slashC :: y ++ appexTailL := by
  have hm : matchesAny s =
      (globM patApp1.toList s.toList ||
        (globM patApp2.toList s.toList || globM patAppex.toList s.toList)) := by
    simp [matchesAny, pats, fnmatchB]
  rw [hm]
  simp only [Bool.or_eq_true]
  constructor
  · rintro (h1 | h2 | h3)
    · exact Or.inl ((glob_pat1_iff _).mp h1)
    · obtain ⟨x, y, h⟩ := (glob_pat2_iff _).mp h2
      refine Or.inl ⟨x ++ slashC :: y, ?_⟩
      rw [h]
      simp
    · exact Or.inr ((glob_pat3_iff _).mp h3)
  · rintro (⟨x, h⟩ | ⟨x, y, h⟩)
    · exact Or.inl ((glob_pat1_iff _).mpr ⟨x, h⟩)
    · exact Or.inr (Or.inr ((glob_pat3_iff _).mpr ⟨x, y, h⟩))

/-! Properties of first-seen-order deduplication and the locator (C9). -/

theorem containsStr_iff (l : List String) (x : String) : l.contains x = true ↔ x ∈ l :=
  List.elem_iff

theorem dedupGo_sublist (l : List String) : ∀ seen, List.Sublist (dedupGo seen l) l := by
  induction l with
  | nil =>
    intro seen
    simp [dedupGo]
  | cons p ps ih =>
    intro seen
    cases hc : seen.contains p with
    | true =>
      simp only [dedupGo, hc, if_true]
      exact List.Sublist.cons p (ih seen)
    | false =>
      simp only [dedupGo, hc, Bool.false_eq_true, if_false]
      exact List.Sublist.cons₂ p (ih (p :: seen))

theorem mem_dedupGo (l : List String) : ∀ seen x, x ∈ dedupGo seen l ↔ x ∈ l ∧ x ∉ seen := by
  induction l with
  | nil => simp [dedupGo]
  | cons p ps ih =>
    intro seen x
    cases hc : seen.contains p with
    | true =>
      have hp : p ∈ seen := (containsStr_iff seen p).mp hc
      simp only [dedupGo, hc, if_true, ih, List.mem_cons]
      constructor
      · rintro ⟨hx, hns⟩
        exact ⟨Or.inr hx, hns⟩
      · rintro ⟨hx | hx, hns⟩
        · exact absurd (hx ▸ hp) hns
        · exact ⟨hx, hns⟩
    | false =>
      have hp : p ∉ seen := fun h => by
        rw [(containsStr_iff seen p).mpr h] at hc
        cases hc
      simp only [dedupGo, hc, Bool.false_eq_true, if_false, List.mem_cons, ih]
      constructor
      · rintro (rfl | ⟨hx, hns⟩)
        · exact ⟨Or.inl rfl, hp⟩
        · exact ⟨Or.inr hx, fun h => hns (Or.inr h)⟩
      · rintro ⟨rfl | hx, hns⟩
        · exact Or.inl rfl
        · by_cases hxp : x = p
          · exact Or.inl hxp
          · refine Or.inr ⟨hx, fun h => ?_⟩
            rcases h with h2 | h2
            · exact hxp h2
            · exact hns h2

theorem dedupGo_nodup (l : List String) : ∀ seen, (dedupGo seen l).Nodup := by
  induction l with
  | nil =>
    intro seen
    simp [dedupGo]
  | cons p ps ih =>
    intro seen
    cases hc : seen.contains p with
    | true =>
      simp only [dedupGo, hc, if_true]
      exact ih seen
    | false =>
      simp only [dedupGo, hc, Bool.false_eq_true, if_false]
      refine List.nodup_cons.mpr ⟨?_, ih (p :: seen)⟩
      intro hmem
      exact ((mem_dedupGo ps (p :: seen) p).mp hmem).2 (List.mem_cons_self p seen)

/-- C9 (confirmed): the locator's result is a subsequence of the archive's
member list (so first-seen archive order is preserved), contains no
duplicates, and contains exactly the member paths matched by one of the three
patterns. -/
theorem C9_locator_order_dedup (names : List String) :
    List.Sublist (find_all_info_plists names) names ∧
    (find_all_info_plists names).Nodup ∧
    ∀ p, p ∈ find_all_info_plists names ↔ p ∈ names ∧ matchesAny p = true := by
  refine ⟨(dedupGo_sublist _ []).trans (List.filter_sublist names), dedupGo_nodup _ [], ?_⟩
  intro p
  rw [find_all_info_plists, mem_dedupGo]
  simp [List.mem_filter]

/-! Structure of the evaluator's output. -/

theorem topGet_mkTop (atsE : List (String × PVal)) :
    topGet (mkTop atsE) kNSAllowsArbitraryLoads = lookupKV atsE kNSAllowsArbitraryLoads := rfl

theorem buildRows_mem (top : List (String × Option PVal)) :
    ∀ (l : List (String × PVal)) (rows : List DomainRow),
      buildRows top l = Except.ok rows →
      ∀ r ∈ rows, ∃ dn cfgE, r = mkRow top dn cfgE := by
  intro l
  induction l with
  | nil =>
    intro rows h r hr
    simp only [buildRows, Except.ok.injEq] at h
    subst h
    cases hr
  | cons e l ih =>
    intro rows h r hr
    obtain ⟨dn, cfg⟩ := e
    cases cfg with
    | dict cfgE =>
      simp only [buildRows] at h
      cases hb : buildRows top l with
      | error e1 =>
        rw [hb] at h
        cases h
      | ok rows2 =>
        rw [hb] at h
        simp only [Except.ok.injEq] at h
        subst h
        rcases List.mem_cons.mp hr with rfl | hr2
        · exact ⟨dn, cfgE, rfl⟩
        · exact ih rows2 hb r hr2
    | b v => cases h
    | s v => cases h
    | n v => cases h

theorem isSome_buildRows (top : List (String × Option PVal)) :
    ∀ l : List (String × PVal),
      (buildRows top l).toOption.isSome = l.all (fun kv => isDictB kv.2) := by
  intro l
  induction l with
  | nil => rfl
  | cons e l ih =>
    obtain ⟨dn, cfg⟩ := e
    cases cfg with
    | dict cfgE =>
      have hstep : (buildRows top ((dn, PVal.dict cfgE) :: l)).toOption.isSome
          = (buildRows top l).toOption.isSome := by
        simp only [buildRows]
        cases hb : buildRows top l with
        | error e1 => rfl
        | ok rows => rfl
      rw [hstep, ih, List.all_cons]
      exact (Bool.true_and _).symm
    | b v =>
      rw [List.all_cons]
      exact (Bool.false_and _).symm
    | s v =>
      rw [List.all_cons]
      exact (Bool.false_and _).symm
    | n v =>
      rw [List.all_cons]
      exact (Bool.false_and _).symm

theorem all_insertByName (x : String × PVal) (l : List (String × PVal))
    (p : String × PVal → Bool) :
    (insertByName x l).all p = (p x && l.all p) := by
  induction l with
  | nil => simp [insertByName]
  | cons y ys ih =>
    simp only [insertByName]
    cases hlt : strLt x.1 y.1 with
    | true => simp [hlt]
    | false =>
      simp only [hlt, Bool.false_eq_true, if_false, List.all_cons, ih]
      cases p x <;> cases p y <;> simp

theorem all_sortByName (l : List (String × PVal)) (p : String × PVal → Bool) :
    (sortByName l).all p = l.all p := by
  induction l with
  | nil => rfl
  | cons x xs ih =>
    show (insertByName x (sortByName xs)).all p = _
    rw [all_insertByName, ih, List.all_cons]

/-- C5 (counterexample): the claim asserts the evaluator produces a Security
Summary for every Manifest Tree, including one whose network-security value
is a non-mapping; but on a tree storing a nonempty string there,
`summarize_pl` raises (`ats.get` on a string raises `AttributeError`). -/
theorem C5_counterexample : (summarize_pl cExPl5).toOption = none := rfl

/-- C5 (amended): the evaluator produces a Security Summary exactly for the
trees whose network-security value and exception-domains value are mappings
after falsy values are coerced to empty mappings, and whose every domain
entry's value is a mapping; on any other tree (a truthy non-mapping in one of
those positions) it raises an uncaught type error instead. -/
theorem C5_amended (pl : Plist) :
    (summarize_pl pl).toOption.isSome = summarizeWellTyped pl := by
  cases hA : atsRaw pl with
  | dict atsE =>
    cases hE : excRaw atsE with
    | dict excE =>
      have hS : summarize_pl pl =
          (match buildRows (mkTop atsE) (sortByName excE) with
           | Except.error e => Except.error e
           | Except.ok rows => Except.ok { top_level := mkTop atsE, domains := rows }) := by
        unfold summarize_pl
        rw [hA]
        dsimp only
        rw [hE]
      have hW : summarizeWellTyped pl = excE.all (fun kv => isDictB kv.2) := by
        unfold summarizeWellTyped
        rw [hA]
        dsimp only
        rw [hE]
      have h := isSome_buildRows (mkTop atsE) (sortByName excE)
      rw [all_sortByName] at h
      rw [hS, hW, ← h]
      cases hb : buildRows (mkTop atsE) (sortByName excE) with
      | error e1 => rfl
      | ok rows => rfl
    | b v =>
      have hS : summarize_pl pl = Except.error errAttr := by
        unfold summarize_pl
        rw [hA]
        dsimp only
        rw [hE]
      have hW : summarizeWellTyped pl = false := by
        unfold summarizeWellTyped
        rw [hA]
        dsimp only
        rw [hE]
      rw [hS, hW]
      rfl
    | s v =>
      have hS : summarize_pl pl = Except.error errAttr := by
        unfold summarize_pl
        rw [hA]
        dsimp only
        rw [hE]
      have hW : summarizeWellTyped pl = false := by
        unfold summarizeWellTyped
        rw [hA]
        dsimp only
        rw [hE]
      rw [hS, hW]
      rfl
    | n v =>
      have hS : summarize_pl pl = Except.error errAttr := by
        unfold summarize_pl
        rw [hA]
        dsimp only
        rw [hE]
      have hW : summarizeWellTyped pl = false := by
        unfold summarizeWellTyped
        rw [hA]
        dsimp only
        rw [hE]
      rw [hS, hW]
      rfl
  | b v =>
    have hS : summarize_pl pl = Except.error errAttr := by
      unfold summarize_pl
      rw [hA]
    have hW : summarizeWellTyped pl = false := by
      unfold summarizeWellTyped
      rw [hA]
    rw [hS, hW]
    rfl
  | s v =>
    have hS : summarize_pl pl = Except.error errAttr := by
      unfold summarize_pl
      rw [hA]
    have hW : summarizeWellTyped pl = false := by
      unfold summarizeWellTyped
      rw [hA]
    rw [hS, hW]
    rfl
  | n v =>
    have hS : summarize_pl pl = Except.error errAttr := by
      unfold summarize_pl
      rw [hA]
    have hW : summarizeWellTyped pl = false := by
      unfold summarizeWellTyped
      rw [hA]
    rw [hS, hW]
    rfl

/-- C1 (counterexample): the claim asserts `effective_http_permitted` is the
OR of three explicit-boolean-`true` tests; but on a domain whose canonical
insecure-HTTP flag holds the non-boolean string `"no"`, all three
explicit-`true` tests are false while `effective_http_permitted` is `true` —
the code tests Python truthiness (`bool(...)`), not explicit `true`. -/
theorem C1_counterexample :
    (summarize_pl cExPl1).toOption.map
      (fun s => s.domains.map (fun r =>
        (specExplicitTrue r.NSExceptionAllowsInsecureHTTPLoads,
          specExplicitTrue r.NSTemporaryExceptionAllowsInsecureHTTPLoads,
          specExplicitTrue (topGet s.top_level kNSAllowsArbitraryLoads),
          r.effective_http_permitted))) = some [(false, false, false, true)] := rfl

/-- C1 (amended): for every decoded Manifest Tree the evaluator accepts,
every domain record's `effective_http_permitted` equals the OR of three
truthiness tests (Python `bool(...)`: explicit `true`, a nonempty string, a
nonzero number or a nonempty mapping pass; absent, `false`, the empty string,
zero and the empty mapping fail) on the domain's canonical insecure-HTTP
flag, its legacy alias, and the bundle-wide arbitrary-loads flag; in
particular a truthy bundle-wide flag forces the result to `true` even when
the domain's own flags are explicitly `false`. -/
theorem C1_amended (pl : Plist) (s : Summary) (h : summarize_pl pl = Except.ok s) :
    ∀ r ∈ s.domains,
      r.effective_http_permitted =
        (truthyOpt r.NSExceptionAllowsInsecureHTTPLoads ||
          truthyOpt r.NSTemporaryExceptionAllowsInsecureHTTPLoads ||
          truthyOpt (topGet s.top_level kNSAllowsArbitraryLoads)) := by
  unfold summarize_pl at h
  cases hA : atsRaw pl with
  | dict atsE =>
    rw [hA] at h
    dsimp only at h
    cases hE : excRaw atsE with
    | dict excE =>
      rw [hE] at h
      dsimp only at h
      cases hb : buildRows (mkTop atsE) (sortByName excE) with
      | error e1 =>
        rw [hb] at h
        cases h
      | ok rows =>
        rw [hb] at h
        dsimp only at h
        simp only [Except.ok.injEq] at h
        subst h
        intro r hr
        obtain ⟨dn, cfgE, rfl⟩ := buildRows_mem (mkTop atsE) (sortByName excE) rows hb r hr
        simp only [mkRow]
    | b v => rw [hE] at h; cases h
    | s v => rw [hE] at h; cases h
    | n v => rw [hE] at h; cases h
  | b v => rw [hA] at h; cases h
  | s v => rw [hA] at h; cases h
  | n v => rw [hA] at h; cases h

/-- C1 (witness for the amended theorem): on a tree whose bundle-wide
arbitrary-loads flag is explicitly `true` while the domain sets its
insecure-HTTP flag explicitly `false`, the record satisfies the truthiness
equation (and its `effective_http_permitted` is `true`). -/
theorem C1_amended_witness :
    rowW1.effective_http_permitted =
      (truthyOpt rowW1.NSExceptionAllowsInsecureHTTPLoads ||
        truthyOpt rowW1.NSTemporaryExceptionAllowsInsecureHTTPLoads ||
        truthyOpt (topGet sW1.top_level kNSAllowsArbitraryLoads)) :=
  C1_amended plW1 sW1 rfl rowW1 (List.mem_cons_self rowW1 [])

/-- C7 (counterexample): the claim asserts the canonical minimum-TLS value is
chosen whenever the canonical key is present; but when the canonical key is
present with the falsy empty string and the legacy key holds a version
string, the code (Python `x or y`) yields the legacy value. -/
theorem C7_counterexample :
    (summarize_pl cExPl7).toOption.map
      (fun s => s.domains.map (fun r =>
        (r.NSExceptionMinimumTLSVersion, r.MinimumTLSVersionEffective)))
      = some [(some (PVal.s emptyStr), some (PVal.s tls10))] := rfl

/-- C7 (amended): for every domain record, `MinimumTLSVersionEffective` is
the canonical minimum-TLS key's value when that value is present and truthy,
and otherwise the legacy alias's value (absent when both are absent): the
canonical key takes precedence only when its value is truthy, since the code
computes Python `canonical or legacy`. -/
theorem C7_amended (pl : Plist) (s : Summary) (h : summarize_pl pl = Except.ok s) :
    ∀ r ∈ s.domains,
      r.MinimumTLSVersionEffective =
        (if truthyOpt r.NSExceptionMinimumTLSVersion then r.NSExceptionMinimumTLSVersion
         else r.NSTemporaryExceptionMinimumTLSVersion) := by
  unfold summarize_pl at h
  cases hA : atsRaw pl with
  | dict atsE =>
    rw [hA] at h
    dsimp only at h
    cases hE : excRaw atsE with
    | dict excE =>
      rw [hE] at h
      dsimp only at h
      cases hb : buildRows (mkTop atsE) (sortByName excE) with
      | error e1 =>
        rw [hb] at h
        cases h
      | ok rows =>
        rw [hb] at h
        dsimp only at h
        simp only [Except.ok.injEq] at h
        subst h
        intro r hr
        obtain ⟨dn, cfgE, rfl⟩ := buildRows_mem (mkTop atsE) (sortByName excE) rows hb r hr
        simp only [mkRow, pyOrO]
    | b v => rw [hE] at h; cases h
    | s v => rw [hE] at h; cases h
    | n v => rw [hE] at h; cases h
  | b v => rw [hA] at h; cases h
  | s v => rw [hA] at h; cases h
  | n v => rw [hA] at h; cases h

/-- C7 (witness for the amended theorem): a domain declaring only the legacy
minimum-TLS key gets that value as its effective minimum TLS version. -/
theorem C7_amended_witness :
    rowW7.MinimumTLSVersionEffective =
      (if truthyOpt rowW7.NSExceptionMinimumTLSVersion then rowW7.NSExceptionMinimumTLSVersion
       else rowW7.NSTemporaryExceptionMinimumTLSVersion) :=
  C7_amended plW7 sW7 rfl rowW7 (List.mem_cons_self rowW7 [])

/-- C10 (confirmed): a manifest with no network-security key yields the
summary with all three bundle-wide flags absent and an empty domain list, and
that summary contributes no insecure record (the secure verdict). -/
theorem C10_no_ats_section (pl : Plist)
    (h : lookupKV pl kNSAppTransportSecurity = none) :
    summarize_pl pl = Except.ok secureEmptySummary ∧
    secureEmptySummary.domains.any (fun d => d.effective_http_permitted) = false := by
  refine ⟨?_, rfl⟩
  have hA : atsRaw pl = PVal.dict [] := by
    unfold atsRaw
    rw [h]
    rfl
  unfold summarize_pl
  rw [hA]
  rfl

/-- C10 (witness): a manifest carrying only an unrelated key. -/
theorem C10_witness :
    summarize_pl pl10 = Except.ok secureEmptySummary ∧
    secureEmptySummary.domains.any (fun d => d.effective_http_permitted) = false :=
  C10_no_ats_section pl10 rfl

/-- C6 (counterexample): the claim asserts only an explicit `true` on the
bundle-wide arbitrary-loads flag activates the global override; but with the
non-boolean truthy string `"no"` stored there (and a domain declaring no
flags at all), the domain's `effective_http_permitted` is `true`. -/
theorem C6_counterexample :
    (summarize_pl cExPl6).toOption.map
      (fun s => s.domains.map (fun r =>
        (specExplicitTrue (topGet s.top_level kNSAllowsArbitraryLoads),
          r.effective_http_permitted))) = some [(false, true)] := rfl

theorem buildRows_proj (t1 t2 : List (String × Option PVal))
    (hg : truthyOpt (topGet t1 kNSAllowsArbitraryLoads)
        = truthyOpt (topGet t2 kNSAllowsArbitraryLoads)) :
    ∀ l, (buildRows t1 l).toOption.map (List.map projDomEff)
        = (buildRows t2 l).toOption.map (List.map projDomEff) := by
  intro l
  induction l with
  | nil => rfl
  | cons e l ih =>
    obtain ⟨dn, cfg⟩ := e
    cases cfg with
    | dict cfgE =>
      simp only [buildRows]
      cases hb1 : buildRows t1 l with
      | error e1 =>
        cases hb2 : buildRows t2 l with
        | error e2 => rfl
        | ok r2 =>
          rw [hb1, hb2] at ih
          simp [Except.toOption] at ih
      | ok r1 =>
        cases hb2 : buildRows t2 l with
        | error e2 =>
          rw [hb1, hb2] at ih
          simp [Except.toOption] at ih
        | ok r2 =>
          rw [hb1, hb2] at ih
          simp only [Except.toOption, Option.map_some', Option.some.injEq] at ih
          simp only [Except.toOption, Option.map_some', Option.some.injEq, List.map_cons, ih]
          simp [projDomEff, mkRow, hg]
    | b v => rfl
    | s v => rfl
    | n v => rfl

/-- C6 (amended): replacing the bundle-wide arbitrary-loads flag's value with
any value of the same Python truthiness — in particular, replacing an
undeclared flag with an explicit `false` or vice versa, both falsy — leaves
every domain record's name and `effective_http_permitted` unchanged; any
truthy value (not only the explicit boolean `true`) activates the global
override. -/
theorem C6_amended (pl1 pl2 : Plist) (a1 a2 : List (String × PVal))
    (h1 : atsRaw pl1 = PVal.dict a1) (h2 : atsRaw pl2 = PVal.dict a2)
    (hexc : lookupKV a1 kNSExceptionDomains = lookupKV a2 kNSExceptionDomains)
    (harb : truthyOpt (lookupKV a1 kNSAllowsArbitraryLoads)
          = truthyOpt (lookupKV a2 kNSAllowsArbitraryLoads)) :
    (summarize_pl pl1).toOption.map (fun s => s.domains.map projDomEff)
      = (summarize_pl pl2).toOption.map (fun s => s.domains.map projDomEff) := by
  have hex : excRaw a1 = excRaw a2 := by
    unfold excRaw
    rw [hexc]
  cases hE : excRaw a2 with
  | dict excE =>
    have hS1 : summarize_pl pl1 =
        (match buildRows (mkTop a1) (sortByName excE) with
         | Except.error e => Except.error e
         | Except.ok rows => Except.ok { top_level := mkTop a1, domains := rows }) := by
      unfold summarize_pl
      rw [h1]
      dsimp only
      rw [hex, hE]
    have hS2 : summarize_pl pl2 =
        (match buildRows (mkTop a2) (sortByName excE) with
         | Except.error e => Except.error e
         | Except.ok rows => Except.ok { top_level := mkTop a2, domains := rows }) := by
      unfold summarize_pl
      rw [h2]
      dsimp only
      rw [hE]
    rw [hS1, hS2]
    have hg : truthyOpt (topGet (mkTop a1) kNSAllowsArbitraryLoads)
            = truthyOpt (topGet (mkTop a2) kNSAllowsArbitraryLoads) := by
      rw [topGet_mkTop, topGet_mkTop]
      exact harb
    have hb := buildRows_proj (mkTop a1) (mkTop a2) hg (sortByName excE)
    cases hb1 : buildRows (mkTop a1) (sortByName excE) with
    | error e1 =>
      cases hb2 : buildRows (mkTop a2) (sortByName excE) with
      | error e2 => rfl
      | ok r2 =>
        rw [hb1, hb2] at hb
        simp [Except.toOption] at hb
    | ok r1 =>
      cases hb2 : buildRows (mkTop a2) (sortByName excE) with
      | error e2 =>
        rw [hb1, hb2] at hb
        simp [Except.toOption] at hb
      | ok r2 =>
        rw [hb1, hb2] at hb
        simpa [Except.toOption] using hb
  | b v =>
    have hS1 : summarize_pl pl1 = Except.error errAttr := by
      unfold summarize_pl
      rw [h1]
      dsimp only
      rw [hex, hE]
    have hS2 : summarize_pl pl2 = Except.error errAttr := by
      unfold summarize_pl
      rw [h2]
      dsimp only
      rw [hE]
    rw [hS1, hS2]
  | s v =>
    have hS1 : summarize_pl pl1 = Except.error errAttr := by
      unfold summarize_pl
      rw [h1]
      dsimp only
      rw [hex, hE]
    have hS2 : summarize_pl pl2 = Except.error errAttr := by
      unfold summarize_pl
      rw [h2]
      dsimp only
      rw [hE]
    rw [hS1, hS2]
  | n v =>
    have hS1 : summarize_pl pl1 = Except.error errAttr := by
      unfold summarize_pl
      rw [h1]
      dsimp only
      rw [hex, hE]
    have hS2 : summarize_pl pl2 = Except.error errAttr := by
      unfold summarize_pl
      rw [h2]
      dsimp only
      rw [hE]
    rw [hS1, hS2]

/-- C6 (witness for the amended theorem): undeclared versus explicit `false`
on the bundle-wide flag, with identical exception domains, give identical
domain names and effective verdicts. -/
theorem C6_amended_witness :
    (summarize_pl pl1W6).toOption.map (fun s => s.domains.map projDomEff)
      = (summarize_pl pl2W6).toOption.map (fun s => s.domains.map projDomEff) :=
  C6_amended pl1W6 pl2W6 a1W6 a2W6 rfl rfl rfl rfl

/-! Properties of the member loop and exit-code selection of `run`. -/

theorem processPaths_isSome (zz : List ZMember) :
    ∀ ps, (processPaths zz ps).toOption.isSome = !(ps.any (crashAt zz)) := by
  intro ps
  induction ps with
  | nil => rfl
  | cons p ps ih =>
    simp only [processPaths, List.any_cons]
    cases hr : readMember zz p with
    | none =>
      have hc : crashAt zz p = false := by
        unfold crashAt
        rw [hr]
      rw [hc, Bool.false_or]
      exact ih
    | some pl =>
      dsimp only
      cases hs : summarize_pl pl with
      | error e =>
        have hc : crashAt zz p = true := by
          unfold crashAt
          rw [hr]
          dsimp only
          rw [hs]
        rw [hc]
        rfl
      | ok s =>
        have hc : crashAt zz p = false := by
          unfold crashAt
          rw [hr]
          dsimp only
          rw [hs]
        rw [hc, Bool.false_or, ← ih]
        cases hp : processPaths zz ps with
        | error e => rfl
        | ok rest => rfl

theorem any_filter_eq (l : List DomainRow) (p q : DomainRow → Bool) :
    (l.filter p).any q = l.any (fun d => p d && q d) := by
  induction l with
  | nil => rfl
  | cons d l ih =>
    cases hp : p d with
    | true => simp [List.filter_cons, hp, ih]
    | false => simp [List.filter_cons, hp, ih]

theorem anyInsecure_map_filterSummary (fd : String) :
    ∀ rs : List (String × Summary),
      anyInsecure (rs.map (fun r => (r.1, filterSummary fd r.2)))
      = rs.any (fun r => r.2.domains.any
          (fun d => (d.domain == fd) && d.effective_http_permitted)) := by
  intro rs
  induction rs with
  | nil => rfl
  | cons r rs ih =>
    simp only [List.map_cons, anyInsecure, List.any_cons] at ih ⊢
    rw [ih]
    simp only [filterSummary]
    rw [any_filter_eq]

theorem anyInsecure_applyFilter (filt : Option String) (rs : List (String × Summary)) :
    anyInsecure (applyFilter filt rs)
      = rs.any (fun r => r.2.domains.any
          (fun d => domMatch filt d && d.effective_http_permitted)) := by
  cases filt with
  | none => simp [applyFilter, anyInsecure, domMatch]
  | some fd =>
    cases hfd : fd == emptyStr with
    | true => simp [applyFilter, anyInsecure, domMatch, hfd]
    | false =>
      simp only [applyFilter, hfd, Bool.false_eq_true, if_false]
      rw [anyInsecure_map_filterSummary]
      simp only [domMatch, hfd, Bool.false_eq_true, if_false]

theorem processPaths_ok_any (zz : List ZMember) (filt : Option String) :
    ∀ ps rs, processPaths zz ps = Except.ok rs →
      rs.any (fun r => r.2.domains.any
          (fun d => domMatch filt d && d.effective_http_permitted))
        = ps.any (insecureAt zz filt) := by
  intro ps
  induction ps with
  | nil =>
    intro rs h
    simp only [processPaths, Except.ok.injEq] at h
    subst h
    rfl
  | cons p ps ih =>
    intro rs h
    simp only [processPaths] at h
    cases hr : readMember zz p with
    | none =>
      rw [hr] at h
      have hi : insecureAt zz filt p = false := by
        unfold insecureAt
        rw [hr]
      rw [List.any_cons, hi, Bool.false_or]
      exact ih rs h
    | some pl =>
      rw [hr] at h
      dsimp only at h
      cases hs : summarize_pl pl with
      | error e =>
        rw [hs] at h
        cases h
      | ok s =>
        rw [hs] at h
        dsimp only at h
        cases hp : processPaths zz ps with
        | error e =>
          rw [hp] at h
          cases h
        | ok rest =>
          rw [hp] at h
          dsimp only at h
          simp only [Except.ok.injEq] at h
          subst h
          have hi : insecureAt zz filt p
              = s.domains.any (fun d => domMatch filt d && d.effective_http_permitted) := by
            unfold insecureAt
            rw [hr]
            dsimp only
            rw [hs]
          rw [List.any_cons, List.any_cons, hi, ih rest hp]

/-- The full exit-status characterization of `run`, in terms of the
spec-side predicates `anyCrashB` and `insecureSpecB`. -/
theorem run_characterization (z : Option (List ZMember)) (filt : Option String) :
    (run z filt).toOption =
      (match z with
       | none => some 3
       | some zz =>
         if (locatedPaths zz).isEmpty then some 3
         else if anyCrashB zz then none
         else if insecureSpecB zz filt then some 2 else some 0) := by
  cases z with
  | none => rfl
  | some zz =>
    have hrun : run (some zz) filt =
        (if (locatedPaths zz).isEmpty then Except.ok 3
         else
           match processPaths zz (locatedPaths zz) with
           | Except.error e => Except.error e
           | Except.ok results =>
             Except.ok (if anyInsecure (applyFilter filt results) then 2 else 0)) := rfl
    rw [hrun]
    dsimp only
    cases hE : (locatedPaths zz).isEmpty with
    | true => rfl
    | false =>
      cases hp : processPaths zz (locatedPaths zz) with
      | error e =>
        have hcrash : anyCrashB zz = true := by
          have h := processPaths_isSome zz (locatedPaths zz)
          rw [hp] at h
          unfold anyCrashB
          cases hx : (locatedPaths zz).any (crashAt zz) with
          | true => rfl
          | false =>
            rw [hx] at h
            cases h
        rw [hcrash]
        rfl
      | ok rs =>
        have hcrash : anyCrashB zz = false := by
          have h := processPaths_isSome zz (locatedPaths zz)
          rw [hp] at h
          unfold anyCrashB
          cases hx : (locatedPaths zz).any (crashAt zz) with
          | false => rfl
          | true =>
            rw [hx] at h
            cases h
        have hins : anyInsecure (applyFilter filt rs) = insecureSpecB zz filt := by
          rw [anyInsecure_applyFilter]
          unfold insecureSpecB
          exact processPaths_ok_any zz filt (locatedPaths zz) rs hp
        dsimp only
        rw [hcrash, hins]
        cases hI : insecureSpecB zz filt with
        | true => rfl
        | false => rfl

/-- C2 (counterexample): the claim asserts the exit status is exactly
three-valued (0, 2, 3); but an archive containing one located manifest that
decodes to a tree whose security section is a truthy non-mapping makes `run`
raise an uncaught `AttributeError` (the process then dies with a traceback
and exit status 1, outside the three documented codes). -/
theorem C2_counterexample : run (some zzCrash) none = Except.error errAttr := rfl

/-- C2 (amended): the exit status is 3 when the archive cannot be opened or
contains no recognized manifest member; otherwise, when every located,
decodable manifest is well-typed at its security keys, the status is 2 if
some domain record surviving the filter has `effective_http_permitted = true`
and 0 otherwise; but a fourth outcome — an uncaught type error, hence a
process exit outside the three documented codes — occurs when some located,
decodable manifest stores a truthy non-mapping at its network-security key,
its exception-domains key, or a domain entry. -/
theorem C2_amended (z : Option (List ZMember)) (filt : Option String) :
    (run z filt).toOption =
      (match z with
       | none => some 3
       | some zz =>
         if (locatedPaths zz).isEmpty then some 3
         else if anyCrashB zz then none
         else if insecureSpecB zz filt then some 2 else some 0) :=
  run_characterization z filt

theorem processPaths_skip_undecodable (zz : List ZMember) :
    ∀ ps, processPaths zz ps
      = processPaths zz (ps.filter (fun p => (readMember zz p).isSome)) := by
  intro ps
  induction ps with
  | nil => rfl
  | cons p ps ih =>
    cases hr : readMember zz p with
    | none =>
      have hf : (p :: ps).filter (fun q => (readMember zz q).isSome)
          = ps.filter (fun q => (readMember zz q).isSome) := by
        simp [List.filter_cons, hr]
      rw [hf, ← ih]
      simp only [processPaths]
      rw [hr]
    | some pl =>
      have hf : (p :: ps).filter (fun q => (readMember zz q).isSome)
          = p :: ps.filter (fun q => (readMember zz q).isSome) := by
        simp [List.filter_cons, hr]
      rw [hf]
      simp only [processPaths]
      rw [hr]
      dsimp only
      rw [ih]

/-- C4 (confirmed): a member whose payload fails to decode is skipped — the
member loop behaves exactly as if the undecodable paths were removed from the
list, so every remaining member is still processed and the verdict is
computed only from the successfully decoded manifests; and when every located
member fails to decode, `run` still exits 0 (the secure verdict), not an
error exit. -/
theorem C4_decode_failures_skipped :
    (∀ (zz : List ZMember) (ps : List String),
        processPaths zz ps
          = processPaths zz (ps.filter (fun p => (readMember zz p).isSome))) ∧
    (∀ (zz : List ZMember) (filt : Option String),
        zz.all (fun m => m.content.isNone) = true →
        (locatedPaths zz).isEmpty = false →
        run (some zz) filt = Except.ok 0) := by
  constructor
  · exact processPaths_skip_undecodable
  · intro zz filt hall hloc
    have hread : ∀ p, readMember zz p = none := by
      intro p
      unfold readMember
      cases hf : zz.find? (fun m => m.path == p) with
      | none => rfl
      | some m =>
        have hm : m ∈ zz := List.mem_of_find?_eq_some hf
        have hmc := List.all_eq_true.mp hall m hm
        dsimp only
        cases hc : m.content with
        | none => rfl
        | some pl =>
          rw [hc] at hmc
          cases hmc
    have hpp : ∀ ps, processPaths zz ps = Except.ok [] := by
      intro ps
      induction ps with
      | nil => rfl
      | cons p ps ih =>
        simp only [processPaths]
        rw [hread p]
        exact ih
    have hrun : run (some zz) filt =
        (if (locatedPaths zz).isEmpty then Except.ok 3
         else
           match processPaths zz (locatedPaths zz) with
           | Except.error e => Except.error e
           | Except.ok results =>
             Except.ok (if anyInsecure (applyFilter filt results) then 2 else 0)) := rfl
    rw [hrun, hloc, hpp (locatedPaths zz)]
    have hap : applyFilter filt ([] : List (String × Summary)) = [] := by
      cases filt with
      | none => rfl
      | some fd => simp [applyFilter]
    dsimp only
    rw [hap]
    rfl

/-- C4 (witness): an archive with two located members, both undecodable,
exits 0. -/
theorem C4_witness : run (some zzC4) none = Except.ok 0 :=
  C4_decode_failures_skipped.2 zzC4 none rfl rfl

/-- C8 (confirmed): when a nonempty domain filter is supplied and every
domain record with `effective_http_permitted = true` across all decoded
manifests fails the exact case-sensitive name comparison with the filter
(`hmiss`; the evaluation raising nowhere), `run` exits 0 even though
insecure records may exist in the unfiltered manifests. -/
theorem C8_filtered_verdict (zz : List ZMember) (fd : String)
    (hfd : (fd == emptyStr) = false)
    (hloc : (locatedPaths zz).isEmpty = false)
    (hcrash : anyCrashB zz = false)
    (hmiss : (locatedPaths zz).all (fun p =>
        match readMember zz p with
        | none => true
        | some pl =>
          match summarize_pl pl with
          | Except.error _ => true
          | Except.ok s => s.domains.all
              (fun d => !d.effective_http_permitted || !(d.domain == fd))) = true) :
    run (some zz) (some fd) = Except.ok 0 := by
  have hins : insecureSpecB zz (some fd) = false := by
    unfold insecureSpecB
    cases hx : (locatedPaths zz).any (insecureAt zz (some fd)) with
    | false => rfl
    | true =>
      exfalso
      obtain ⟨p, hp, hip⟩ := List.any_eq_true.mp hx
      have hmp := List.all_eq_true.mp hmiss p hp
      unfold insecureAt at hip
      cases hr : readMember zz p with
      | none =>
        rw [hr] at hip
        cases hip
      | some pl =>
        rw [hr] at hip hmp
        dsimp only at hip hmp
        cases hs : summarize_pl pl with
        | error e =>
          rw [hs] at hip
          cases hip
        | ok s =>
          rw [hs] at hip hmp
          dsimp only at hip hmp
          obtain ⟨d, hd, hdd⟩ := List.any_eq_true.mp hip
          have hda := List.all_eq_true.mp hmp d hd
          simp only [domMatch, hfd, Bool.false_eq_true, if_false, Bool.and_eq_true] at hdd
          rw [hdd.1, hdd.2] at hda
          cases hda
  have h0 := run_characterization (some zz) (some fd)
  have h : (run (some zz) (some fd)).toOption =
      (if (locatedPaths zz).isEmpty then some 3
       else if anyCrashB zz then none
       else if insecureSpecB zz (some fd) then some 2 else some 0) := h0
  rw [hloc, hcrash, hins] at h
  simp only [Bool.false_eq_true, if_false] at h
  cases hrun : run (some zz) (some fd) with
  | error e =>
    rw [hrun] at h
    cases h
  | ok v =>
    rw [hrun] at h
    simp only [Except.toOption, Option.some.injEq] at h
    rw [h]

/-- C8 (witness): an archive whose single manifest marks `evil.example`
insecure is insecure unfiltered, but exits 0 when filtered by the
non-matching domain `good.example`. -/
theorem C8_witness :
    insecureSpecB zz8 none = true ∧ run (some zz8) (some dnGood) = Except.ok 0 :=
  ⟨rfl, C8_filtered_verdict zz8 dnGood rfl rfl rfl rfl⟩

end ATSCheck
